import Mathlib

/-!
Verification of the coreKV-CPP sharded cache layer.

The router (`ShardCache` in `src/cache/cache.h`) is embedded directly from
the source.  The per-shard LRU eviction policy (`LruCachePolicy` in `lru.h`)
is not part of the sources at hand; its behaviour is modelled from the
design document (sections 3, 4.1, 4.2): an MRU-first recency list with a
key index, pin counts, TTL deadlines, and a sweep that walks from the LRU
end.  Cleanup-handler invocations are recorded in an explicit event log so
that lifetime properties can be stated as trace properties.
-/

namespace CoreKV

/-- `kShardNum` from `cache.h`: `static constexpr uint8_t kShardNum = 4`. -/
def kShardNum : Nat := 4

/-- Length of the `cache_impl_` vector right after default construction:
`std::vector<std::shared_ptr<CachePolicy<K,V>>> cache_impl_;` (cache.h line
105) is default-initialised, i.e. empty, and no `resize`/`reserve`/
`push_back` occurs anywhere in the class. -/
def cacheImplInitLength : Nat := 0

/-- The indices written by the `ShardCache(uint32_t capacity)` constructor
loop: `for (int32_t index = 0; index < kShardNum; ++index)
cache_impl_[index] = ...` (cache.h lines 52-65). -/
def ctorIndices : List Nat := List.range kShardNum

/-- The in-bounds property for the constructor's `operator[]` accesses on
`cache_impl_`: each accessed index is below the vector's size at the time
of the access (the vector is never grown, so its size stays
`cacheImplInitLength`). -/
def ctorAccessesInBounds : Prop := ∀ i ∈ ctorIndices, i < cacheImplInitLength

/-- A cache node, from the design document section 3: key, owned value,
pin count, absolute expiry deadline (`0` = never expires by time), plus an
insertion identity used to account for node lifetimes. -/
structure CacheNode (K V : Type) where
  key : K
  value : V
  pin_count : Nat
  expire_at : Nat
  id : Nat
deriving DecidableEq, Repr

/-- Modelled from the spec: the per-shard `LruCachePolicy` state (`lru.h`
is not among the sources).  `recency` is the recency list, most recently
used first; the key index is implicit since keys are unique in the list.
`nextId` allocates insertion identities; `handler` is the registered
cleanup callback. -/
structure LruState (K V : Type) where
  recency : List (CacheNode K V)
  capacity : Nat
  nextId : Nat
  handler : Option (K → V → Unit)

variable {K V : Type} [DecidableEq K] [DecidableEq V]

/-- First node with the given key, i.e. the shard's key index lookup. -/
def lookupKey (k : K) : List (CacheNode K V) → Option (CacheNode K V)
  | [] => none
  | n :: rest => if n.key = k then some n else lookupKey k rest

/-- Remove every node carrying the given key from the recency list. -/
def removeKey (k : K) : List (CacheNode K V) → List (CacheNode K V)
  | [] => []
  | n :: rest => if n.key = k then removeKey k rest else n :: removeKey k rest

/-- Node freshly built by `Insert` at time `now`: pin count `0`, expiry
deadline `now + ttl` (`ttl = 0` means no expiration). -/
def mkNode (now : Nat) (k : K) (v : V) (ttl : Nat) (id : Nat) : CacheNode K V :=
  ⟨k, v, 0, if ttl = 0 then 0 else now + ttl, id⟩

/-- Modelled from the spec: `Insert` for a shard (section 4.1).  A fresh
key goes to the MRU end with pin count 0.  An existing unpinned node is
cleaned up (it is returned in the event log) and replaced; an existing
pinned node rejects the insert (section 9 leaves the pinned-replacement
policy open; rejection is the choice that keeps pinned nodes untouched). -/
def lruInsert (now : Nat) (k : K) (v : V) (ttl : Nat) (s : LruState K V) :
    LruState K V × List (CacheNode K V) :=
  match lookupKey k s.recency with
  | some old =>
      if 0 < old.pin_count then (s, [])
      else
        ({ s with
            recency := mkNode now k v ttl s.nextId :: removeKey k s.recency,
            nextId := s.nextId + 1 }, [old])
  | none =>
      ({ s with
          recency := mkNode now k v ttl s.nextId :: s.recency,
          nextId := s.nextId + 1 }, [])

/-- Modelled from the spec: `Get` for a shard (section 4.1).  On a hit the
pin count is incremented and the node is repositioned to the MRU end; the
pinned node is returned.  On a miss the state is unchanged. -/
def lruGet (k : K) (s : LruState K V) : Option (CacheNode K V) × LruState K V :=
  match lookupKey k s.recency with
  | some n =>
      let touched : CacheNode K V := { n with pin_count := n.pin_count + 1 }
      (some touched, { s with recency := touched :: removeKey k s.recency })
  | none => (none, s)

/-- Decrement the pin count of the node holding key `k` (saturating at 0,
per the design document's guarded-counter requirement in section 7). -/
def decPin (k : K) (l : List (CacheNode K V)) : List (CacheNode K V) :=
  l.map fun n => if n.key = k then { n with pin_count := n.pin_count - 1 } else n

/-- Modelled from the spec: `Release` for a shard (section 4.1): decrement
the pin count of the node previously returned by `Get`, identified by its
stored key. -/
def lruRelease (k : K) (s : LruState K V) : LruState K V :=
  { s with recency := decPin k s.recency }

/-- Modelled from the spec: `Erase` for a shard (section 4.1/4.2): remove
the entry and invoke cleanup if it is unpinned; a pinned entry is skipped
(the `present(pinned) → absent` transition is forbidden). -/
def lruErase (k : K) (s : LruState K V) : LruState K V × List (CacheNode K V) :=
  match lookupKey k s.recency with
  | some n =>
      if 0 < n.pin_count then (s, [])
      else ({ s with recency := removeKey k s.recency }, [n])
  | none => (s, [])

/-- Modelled from the spec: the sweep walk of `Prune` (section 4.2), over
the recency list given LRU-end first, carrying the shard's current entry
count.  A pinned node is skipped and the walk continues; an expired node
(deadline set and past) is evicted unconditionally; otherwise a node is
evicted only while the count exceeds capacity.  Returns the kept nodes (in
walk order) and the evicted nodes. -/
def sweep (now cap : Nat) :
    List (CacheNode K V) → Nat → List (CacheNode K V) × List (CacheNode K V)
  | [], _ => ([], [])
  | n :: rest, size =>
      if 0 < n.pin_count then
        let p := sweep now cap rest size
        (n :: p.1, p.2)
      else if n.expire_at ≠ 0 ∧ n.expire_at < now then
        let p := sweep now cap rest (size - 1)
        (p.1, n :: p.2)
      else if cap < size then
        let p := sweep now cap rest (size - 1)
        (p.1, n :: p.2)
      else
        let p := sweep now cap rest size
        (n :: p.1, p.2)

/-- Modelled from the spec: `Prune` for a shard (section 4.2): sweep the
recency list from the LRU end at time `now`; evicted nodes make up the
cleanup event log. -/
def lruPrune (now : Nat) (s : LruState K V) : LruState K V × List (CacheNode K V) :=
  let p := sweep now s.capacity s.recency.reverse s.recency.length
  ({ s with recency := p.1.reverse }, p.2)

/-- Modelled from the spec: `RegistCleanHandle` for a shard installs the
cleanup callback. -/
def lruRegistCleanHandle (f : K → V → Unit) (s : LruState K V) : LruState K V :=
  { s with handler := some f }

/-- Modelled from the spec: the empty shard with the given capacity. -/
def lruInit (cap : Nat) : LruState K V :=
  ⟨[], cap, 0, none⟩

/-- One shard-level cache operation. -/
inductive Op (K V : Type) where
  | insert (now : Nat) (k : K) (v : V) (ttl : Nat)
  | get (k : K)
  | release (k : K)
  | erase (k : K)
  | prune (now : Nat)
  | regist (f : K → V → Unit)

/-- Apply one operation to a shard, returning the new state and the
cleanup invocations it caused. -/
def stepOp (s : LruState K V) : Op K V → LruState K V × List (CacheNode K V)
  | .insert now k v ttl => lruInsert now k v ttl s
  | .get k => ((lruGet k s).2, [])
  | .release k => (lruRelease k s, [])
  | .erase k => lruErase k s
  | .prune now => lruPrune now s
  | .regist f => (lruRegistCleanHandle f s, [])

/-- Run a sequence of operations from the empty shard, accumulating the
cleanup event log. -/
def runOps (cap : Nat) (ops : List (Op K V)) : LruState K V × List (CacheNode K V) :=
  ops.foldl (fun acc op => ((stepOp acc.1 op).1, acc.2 ++ (stepOp acc.1 op).2))
    (lruInit cap, [])

/-- The sharded cache: `cache_impl_` holds one policy instance per shard
index (the intended post-construction state; the constructor's vector
bounds defect is treated separately). -/
structure ShardCache (K V : Type) where
  shards : Fin kShardNum → LruState K V

/-- `hash(key) % kShardNum`, the shard selector from `cache.h`. -/
def shardIdx (hash : K → Nat) (k : K) : Fin kShardNum :=
  ⟨hash k % kShardNum, Nat.mod_lt _ (by decide)⟩

/-- `ShardCache::Insert` (cache.h lines 70-75): route by
`hash(key) % kShardNum` and delegate to that shard. -/
def ShardCache.Insert (hash : K → Nat) (now : Nat) (k : K) (v : V) (ttl : Nat)
    (c : ShardCache K V) : ShardCache K V × List (CacheNode K V) :=
  let i := shardIdx hash k
  let r := lruInsert now k v ttl (c.shards i)
  (⟨Function.update c.shards i r.1⟩, r.2)

/-- `ShardCache::Get` (cache.h lines 76-79). -/
def ShardCache.Get (hash : K → Nat) (k : K) (c : ShardCache K V) :
    Option (CacheNode K V) × ShardCache K V :=
  let i := shardIdx hash k
  let r := lruGet k (c.shards i)
  (r.1, ⟨Function.update c.shards i r.2⟩)

/-- `ShardCache::Release` (cache.h lines 80-83): the shard index is
recomputed from the key stored in the node handle,
`std::hash<KeyType>{}(node->key) % kShardNum`. -/
def ShardCache.Release (hash : K → Nat) (node : CacheNode K V)
    (c : ShardCache K V) : ShardCache K V :=
  let i := shardIdx hash node.key
  ⟨Function.update c.shards i (lruRelease node.key (c.shards i))⟩

/-- `ShardCache::Erase` (cache.h lines 90-93). -/
def ShardCache.Erase (hash : K → Nat) (k : K) (c : ShardCache K V) :
    ShardCache K V × List (CacheNode K V) :=
  let i := shardIdx hash k
  let r := lruErase k (c.shards i)
  (⟨Function.update c.shards i r.1⟩, r.2)

/-- `ShardCache::Prune` (cache.h lines 85-89): loop over the shard indices
in order `0..kShardNum-1`, pruning each shard. -/
def ShardCache.Prune (now : Nat) (c : ShardCache K V) :
    ShardCache K V × List (CacheNode K V) :=
  (List.finRange kShardNum).foldl
    (fun acc i =>
      let r := lruPrune now (acc.1.shards i)
      (⟨Function.update acc.1.shards i r.1⟩, acc.2 ++ r.2))
    (c, [])

/-- `ShardCache::RegistCleanHandle` (cache.h lines 94-99): loop over the
shard indices in order, installing the handler on each shard. -/
def ShardCache.RegistCleanHandle (f : K → V → Unit) (c : ShardCache K V) :
    ShardCache K V :=
  (List.finRange kShardNum).foldl
    (fun acc i => ⟨Function.update acc.shards i (lruRegistCleanHandle f (acc.shards i))⟩)
    c

/-- Key `k` is present in the shard (decidable form). -/
def presentKey (k : K) (s : LruState K V) : Bool :=
  (lookupKey k s.recency).isSome

/-- Key `k` is present and pinned in the shard (decidable form). -/
def pinnedKey (k : K) (s : LruState K V) : Bool :=
  match lookupKey k s.recency with
  | some n => decide (0 < n.pin_count)
  | none => false

/-- Pin count of the node holding key `k`, when present. -/
def pinOf (k : K) (s : LruState K V) : Option Nat :=
  (lookupKey k s.recency).map CacheNode.pin_count

/-- No node of the shard is pinned. -/
def allUnpinned (s : LruState K V) : Prop :=
  ∀ n ∈ s.recency, n.pin_count = 0

/-- One matched `Get`/`Release` pair on key `k`. -/
def getRelease (k : K) (s : LruState K V) : LruState K V :=
  lruRelease k (lruGet k s).2

instance (s : LruState K V) : Decidable (allUnpinned s) :=
  inferInstanceAs (Decidable (∀ n ∈ s.recency, n.pin_count = 0))

theorem lookupKey_eq_some {k : K} {l : List (CacheNode K V)} {n : CacheNode K V}
    (h : lookupKey k l = some n) : n ∈ l ∧ n.key = k := by
  induction l with
  | nil => simp [lookupKey] at h
  | cons m rest ih =>
      by_cases hm : m.key = k
      · simp only [lookupKey, if_pos hm, Option.some.injEq] at h
        exact ⟨by simp [← h], by rw [← h]; exact hm⟩
      · simp only [lookupKey, if_neg hm] at h
        rcases ih h with ⟨h1, h2⟩
        exact ⟨List.mem_cons_of_mem _ h1, h2⟩

theorem lookupKey_isSome_of_mem {k : K} {l : List (CacheNode K V)} {n : CacheNode K V}
    (hn : n ∈ l) (hk : n.key = k) : (lookupKey k l).isSome := by
  induction l with
  | nil => simp at hn
  | cons m rest ih =>
      by_cases hm : m.key = k
      · simp [lookupKey, hm]
      · rcases List.mem_cons.mp hn with h | h
        · exact absurd (h ▸ hk) hm
        · simpa [lookupKey, hm] using ih h

theorem mem_removeKey {k : K} {l : List (CacheNode K V)} {m : CacheNode K V} :
    m ∈ removeKey k l ↔ m ∈ l ∧ ¬ m.key = k := by
  induction l with
  | nil => simp [removeKey]
  | cons n rest ih =>
      by_cases hn : n.key = k
      · rw [removeKey, if_pos hn, ih]
        constructor
        · rintro ⟨h1, h2⟩
          exact ⟨List.mem_cons_of_mem _ h1, h2⟩
        · rintro ⟨h1, h2⟩
          rcases List.mem_cons.mp h1 with h | h
          · exact absurd (h ▸ hn) h2
          · exact ⟨h, h2⟩
      · rw [removeKey, if_neg hn]
        constructor
        · intro h
          rcases List.mem_cons.mp h with h | h
          · exact ⟨h ▸ List.mem_cons_self n rest, h ▸ hn⟩
          · rcases ih.mp h with ⟨h1, h2⟩
            exact ⟨List.mem_cons_of_mem _ h1, h2⟩
        · rintro ⟨h1, h2⟩
          rcases List.mem_cons.mp h1 with h | h
          · exact h ▸ List.mem_cons_self n _
          · exact List.mem_cons_of_mem _ (ih.mpr ⟨h, h2⟩)

theorem removeKey_sublist (k : K) (l : List (CacheNode K V)) : List.Sublist (removeKey k l) l := by
  induction l with
  | nil => simp [removeKey]
  | cons n rest ih =>
      by_cases hn : n.key = k
      · rw [removeKey, if_pos hn]
        exact List.Sublist.cons _ ih
      · rw [removeKey, if_neg hn]
        exact List.Sublist.cons₂ _ ih

theorem lookupKey_map {j : K} {f : CacheNode K V → CacheNode K V}
    (hf : ∀ n, (f n).key = n.key) (l : List (CacheNode K V)) :
    lookupKey j (l.map f) = (lookupKey j l).map f := by
  induction l with
  | nil => rfl
  | cons n rest ih =>
      by_cases hn : n.key = j
      · simp [lookupKey, hf, hn]
      · simp [lookupKey, hf, hn, ih]

theorem decPin_key (k : K) (n : CacheNode K V) :
    (if n.key = k then { n with pin_count := n.pin_count - 1 } else n).key = n.key := by
  by_cases hn : n.key = k <;> simp [hn]

theorem decPin_map_id (k : K) (l : List (CacheNode K V)) :
    (decPin k l).map CacheNode.id = l.map CacheNode.id := by
  simp only [decPin, List.map_map]
  refine List.map_congr_left ?_
  intro n _
  by_cases hn : n.key = k <;> simp [hn]

theorem id_not_mem_removeKey {l : List (CacheNode K V)} {k : K} {n : CacheNode K V}
    (hnd : (l.map CacheNode.id).Nodup) (hn : n ∈ l) (hk : n.key = k) :
    n.id ∉ (removeKey k l).map CacheNode.id := by
  intro h
  rcases List.mem_map.mp h with ⟨m, hm, hid⟩
  rcases mem_removeKey.mp hm with ⟨hml, hmk⟩
  have hmn : m = n := List.inj_on_of_nodup_map hnd hml hn hid
  exact hmk (hmn ▸ hk)

theorem presentKey_iff {k : K} {s : LruState K V} :
    presentKey k s = true ↔ ∃ n ∈ s.recency, n.key = k := by
  constructor
  · intro h
    rcases Option.isSome_iff_exists.mp h with ⟨n, hn⟩
    rcases lookupKey_eq_some hn with ⟨h1, h2⟩
    exact ⟨n, h1, h2⟩
  · rintro ⟨n, hn, hk⟩
    exact lookupKey_isSome_of_mem hn hk

theorem sweep_kept_sublist (now cap : Nat) :
    ∀ (l : List (CacheNode K V)) (sz : Nat), List.Sublist (sweep now cap l sz).1 l := by
  intro l
  induction l with
  | nil => intro sz; simp [sweep]
  | cons n rest ih =>
      intro sz
      by_cases h1 : 0 < n.pin_count
      · simp only [sweep, if_pos h1]
        exact List.Sublist.cons₂ _ (ih sz)
      · by_cases h2 : n.expire_at ≠ 0 ∧ n.expire_at < now
        · simp only [sweep, if_neg h1, if_pos h2]
          exact List.Sublist.cons _ (ih (sz - 1))
        · by_cases h3 : cap < sz
          · simp only [sweep, if_neg h1, if_neg h2, if_pos h3]
            exact List.Sublist.cons _ (ih (sz - 1))
          · simp only [sweep, if_neg h1, if_neg h2, if_neg h3]
            exact List.Sublist.cons₂ _ (ih sz)

theorem sweep_ev_sublist (now cap : Nat) :
    ∀ (l : List (CacheNode K V)) (sz : Nat), List.Sublist (sweep now cap l sz).2 l := by
  intro l
  induction l with
  | nil => intro sz; simp [sweep]
  | cons n rest ih =>
      intro sz
      by_cases h1 : 0 < n.pin_count
      · simp only [sweep, if_pos h1]
        exact List.Sublist.cons _ (ih sz)
      · by_cases h2 : n.expire_at ≠ 0 ∧ n.expire_at < now
        · simp only [sweep, if_neg h1, if_pos h2]
          exact List.Sublist.cons₂ _ (ih (sz - 1))
        · by_cases h3 : cap < sz
          · simp only [sweep, if_neg h1, if_neg h2, if_pos h3]
            exact List.Sublist.cons₂ _ (ih (sz - 1))
          · simp only [sweep, if_neg h1, if_neg h2, if_neg h3]
            exact List.Sublist.cons _ (ih sz)

theorem sweep_count_id (now cap i : Nat) :
    ∀ (l : List (CacheNode K V)) (sz : Nat),
      ((sweep now cap l sz).1.map CacheNode.id).count i
        + ((sweep now cap l sz).2.map CacheNode.id).count i
        = (l.map CacheNode.id).count i := by
  intro l
  induction l with
  | nil => intro sz; simp [sweep]
  | cons n rest ih =>
      intro sz
      by_cases h1 : 0 < n.pin_count
      · simp only [sweep, if_pos h1, List.map_cons, List.count_cons]
        have := ih sz
        omega
      · by_cases h2 : n.expire_at ≠ 0 ∧ n.expire_at < now
        · simp only [sweep, if_neg h1, if_pos h2, List.map_cons, List.count_cons]
          have := ih (sz - 1)
          omega
        · by_cases h3 : cap < sz
          · simp only [sweep, if_neg h1, if_neg h2, if_pos h3, List.map_cons,
              List.count_cons]
            have := ih (sz - 1)
            omega
          · simp only [sweep, if_neg h1, if_neg h2, if_neg h3, List.map_cons,
              List.count_cons]
            have := ih sz
            omega

theorem sweep_pinned_kept (now cap : Nat) {n : CacheNode K V}
    (hpin : 0 < n.pin_count) :
    ∀ (l : List (CacheNode K V)) (sz : Nat), n ∈ l → n ∈ (sweep now cap l sz).1 := by
  intro l
  induction l with
  | nil => intro sz h; simp at h
  | cons m rest ih =>
      intro sz hmem
      by_cases h1 : 0 < m.pin_count
      · simp only [sweep, if_pos h1]
        rcases List.mem_cons.mp hmem with h | h
        · exact h ▸ List.mem_cons_self _ _
        · exact List.mem_cons_of_mem _ (ih sz h)
      · have hne : n ≠ m := fun he => h1 (he ▸ hpin)
        have hrest : n ∈ rest := by
          rcases List.mem_cons.mp hmem with h | h
          · exact absurd h hne
          · exact h
        by_cases h2 : m.expire_at ≠ 0 ∧ m.expire_at < now
        · simp only [sweep, if_neg h1, if_pos h2]
          exact ih (sz - 1) hrest
        · by_cases h3 : cap < sz
          · simp only [sweep, if_neg h1, if_neg h2, if_pos h3]
            exact ih (sz - 1) hrest
          · simp only [sweep, if_neg h1, if_neg h2, if_neg h3]
            exact List.mem_cons_of_mem _ (ih sz hrest)

theorem sweep_ev_pin (now cap : Nat) :
    ∀ (l : List (CacheNode K V)) (sz : Nat),
      ∀ n ∈ (sweep now cap l sz).2, n.pin_count = 0 := by
  intro l
  induction l with
  | nil => intro sz n h; simp [sweep] at h
  | cons m rest ih =>
      intro sz n hn
      by_cases h1 : 0 < m.pin_count
      · simp only [sweep, if_pos h1] at hn
        exact ih sz n hn
      · have hm0 : m.pin_count = 0 := Nat.eq_zero_of_not_pos h1
        by_cases h2 : m.expire_at ≠ 0 ∧ m.expire_at < now
        · simp only [sweep, if_neg h1, if_pos h2] at hn
          rcases List.mem_cons.mp hn with h | h
          · exact h ▸ hm0
          · exact ih (sz - 1) n h
        · by_cases h3 : cap < sz
          · simp only [sweep, if_neg h1, if_neg h2, if_pos h3] at hn
            rcases List.mem_cons.mp hn with h | h
            · exact h ▸ hm0
            · exact ih (sz - 1) n h
          · simp only [sweep, if_neg h1, if_neg h2, if_neg h3] at hn
            exact ih sz n hn

theorem sweep_kept_length_le_cap (now cap : Nat) :
    ∀ (l : List (CacheNode K V)), (∀ n ∈ l, n.pin_count = 0) →
      (sweep now cap l l.length).1.length ≤ cap := by
  intro l
  induction l with
  | nil => intro _; simp [sweep]
  | cons n rest ih =>
      intro hun
      have hn0 : n.pin_count = 0 := hun n (List.mem_cons_self _ _)
      have h1 : ¬ 0 < n.pin_count := by omega
      have hrest : ∀ m ∈ rest, m.pin_count = 0 :=
        fun m hm => hun m (List.mem_cons_of_mem _ hm)
      by_cases h2 : n.expire_at ≠ 0 ∧ n.expire_at < now
      · simp only [sweep, if_neg h1, if_pos h2, List.length_cons, Nat.add_sub_cancel]
        exact ih hrest
      · by_cases h3 : cap < rest.length + 1
        · simp only [sweep, if_neg h1, if_neg h2, if_pos h3, List.length_cons,
            Nat.add_sub_cancel]
          exact ih hrest
        · simp only [sweep, if_neg h1, if_neg h2, if_pos h3]
          have hle := (sweep_kept_sublist now cap rest (rest.length + 1)).length_le
          simp only [List.length_cons, if_neg h3]
          omega

theorem sweep_keeps_unexpired (now cap : Nat) {n : CacheNode K V}
    (hexp : n.expire_at = 0) :
    ∀ (l : List (CacheNode K V)) (sz : Nat), sz ≤ cap → n ∈ l →
      n ∈ (sweep now cap l sz).1 := by
  intro l
  induction l with
  | nil => intro sz _ h; simp at h
  | cons m rest ih =>
      intro sz hsz hmem
      by_cases h1 : 0 < m.pin_count
      · simp only [sweep, if_pos h1]
        rcases List.mem_cons.mp hmem with h | h
        · exact h ▸ List.mem_cons_self _ _
        · exact List.mem_cons_of_mem _ (ih sz hsz h)
      · by_cases h2 : m.expire_at ≠ 0 ∧ m.expire_at < now
        · have hne : n ≠ m := fun he => h2.1 (he ▸ hexp)
          have hrest : n ∈ rest := by
            rcases List.mem_cons.mp hmem with h | h
            · exact absurd h hne
            · exact h
          simp only [sweep, if_neg h1, if_pos h2]
          exact ih (sz - 1) (by omega) hrest
        · have h3 : ¬ cap < sz := by omega
          simp only [sweep, if_neg h1, if_neg h2, if_neg h3]
          rcases List.mem_cons.mp hmem with h | h
          · exact h ▸ List.mem_cons_self _ _
          · exact List.mem_cons_of_mem _ (ih sz hsz h)

theorem sweep_expired_evicted (now cap : Nat) {n : CacheNode K V}
    (hpin : n.pin_count = 0) (hexp : n.expire_at ≠ 0) (hlt : n.expire_at < now) :
    ∀ (l : List (CacheNode K V)) (sz : Nat), n ∈ l → n ∈ (sweep now cap l sz).2 := by
  intro l
  induction l with
  | nil => intro sz h; simp at h
  | cons m rest ih =>
      intro sz hmem
      by_cases h1 : 0 < m.pin_count
      · have hne : n ≠ m := fun he => by rw [he] at hpin; omega
        have hrest : n ∈ rest := by
          rcases List.mem_cons.mp hmem with h | h
          · exact absurd h hne
          · exact h
        simp only [sweep, if_pos h1]
        exact ih sz hrest
      · by_cases h2 : m.expire_at ≠ 0 ∧ m.expire_at < now
        · simp only [sweep, if_neg h1, if_pos h2]
          rcases List.mem_cons.mp hmem with h | h
          · exact h ▸ List.mem_cons_self _ _
          · exact List.mem_cons_of_mem _ (ih (sz - 1) h)
        · have hne : n ≠ m := fun he => h2 (he ▸ ⟨hexp, hlt⟩)
          have hrest : n ∈ rest := by
            rcases List.mem_cons.mp hmem with h | h
            · exact absurd h hne
            · exact h
          by_cases h3 : cap < sz
          · simp only [sweep, if_neg h1, if_neg h2, if_pos h3]
            exact List.mem_cons_of_mem _ (ih (sz - 1) hrest)
          · simp only [sweep, if_neg h1, if_neg h2, if_neg h3]
            exact ih sz hrest

theorem sweep_not_kept_of_evicted (now cap : Nat) {l : List (CacheNode K V)}
    {sz : Nat} {n : CacheNode K V} (hnd : (l.map CacheNode.id).Nodup)
    (hev : n ∈ (sweep now cap l sz).2) :
    n.id ∉ (sweep now cap l sz).1.map CacheNode.id := by
  intro hk
  have hcount := sweep_count_id now cap n.id (K := K) (V := V) l sz
  have hev1 : 0 < ((sweep now cap l sz).2.map CacheNode.id).count n.id :=
    List.count_pos_iff_mem.mpr (List.mem_map_of_mem _ hev)
  have hk1 : 0 < ((sweep now cap l sz).1.map CacheNode.id).count n.id :=
    List.count_pos_iff_mem.mpr hk
  have hle : (l.map CacheNode.id).count n.id ≤ 1 :=
    List.nodup_iff_count_le_one.mp hnd n.id
  omega

theorem ids_removeKey_subset (k : K) (l : List (CacheNode K V)) :
    ∀ i ∈ (removeKey k l).map CacheNode.id, i ∈ l.map CacheNode.id :=
  fun _ hi => ((removeKey_sublist k l).map CacheNode.id).subset hi

theorem nodup_ids_removeKey (k : K) {l : List (CacheNode K V)}
    (h : (l.map CacheNode.id).Nodup) : ((removeKey k l).map CacheNode.id).Nodup :=
  ((removeKey_sublist k l).map CacheNode.id).nodup h

theorem mem_decPin_id {k : K} {l : List (CacheNode K V)} {m : CacheNode K V}
    (hm : m ∈ decPin k l) : ∃ n ∈ l, m.id = n.id := by
  rcases List.mem_map.mp hm with ⟨n, hn, he⟩
  refine ⟨n, hn, ?_⟩
  by_cases hk : n.key = k
  · rw [← he]; simp [hk]
  · rw [← he]; simp [hk]

/-- Lifetime bookkeeping invariant tying a shard state to the cleanup
event log accumulated so far: node identities are distinct and below the
allocator, logged identities are distinct, a logged node is gone from the
shard, and every logged node was unpinned when cleaned up. -/
structure Inv (s : LruState K V) (log : List (CacheNode K V)) : Prop where
  recNodup : (s.recency.map CacheNode.id).Nodup
  recLt : ∀ n ∈ s.recency, n.id < s.nextId
  logLt : ∀ n ∈ log, n.id < s.nextId
  logNodup : (log.map CacheNode.id).Nodup
  disj : ∀ n ∈ log, n.id ∉ s.recency.map CacheNode.id
  logUnpinned : ∀ n ∈ log, n.pin_count = 0

theorem inv_init (cap : Nat) : Inv (lruInit cap : LruState K V) [] := by
  constructor <;> simp [lruInit]

theorem inv_insert {s : LruState K V} {log : List (CacheNode K V)}
    (h : Inv s log) (now : Nat) (k : K) (v : V) (ttl : Nat) :
    Inv (lruInsert now k v ttl s).1 (log ++ (lruInsert now k v ttl s).2) := by
  rcases hl : lookupKey k s.recency with _ | old
  · simp only [lruInsert, hl, List.append_nil]
    refine ⟨?_, ?_, ?_, h.logNodup, ?_, h.logUnpinned⟩
    · simp only [List.map_cons]
      refine List.nodup_cons.mpr ⟨?_, h.recNodup⟩
      intro hmem
      rcases List.mem_map.mp hmem with ⟨m, hm, hid⟩
      have := h.recLt m hm
      simp only [mkNode] at hid
      omega
    · intro n hn
      rcases List.mem_cons.mp hn with hn | hn
      · simp [hn, mkNode]
      · exact Nat.lt_succ_of_lt (h.recLt n hn)
    · intro n hn
      exact Nat.lt_succ_of_lt (h.logLt n hn)
    · intro n hn
      have hd := h.disj n hn
      have hlt := h.logLt n hn
      simp only [List.map_cons, List.mem_cons]
      rintro (he | he)
      · simp only [mkNode] at he; omega
      · exact hd he
  · rcases lookupKey_eq_some hl with ⟨hold, holdk⟩
    by_cases hp : 0 < old.pin_count
    · simp only [lruInsert, hl, if_pos hp, List.append_nil]
      exact h
    · simp only [lruInsert, hl, if_neg hp]
      have hold0 : old.pin_count = 0 := Nat.eq_zero_of_not_pos hp
      have holdlt := h.recLt old hold
      have holdid : old.id ∈ s.recency.map CacheNode.id := List.mem_map_of_mem _ hold
      have holdnotlog : old.id ∉ log.map CacheNode.id := by
        intro hmem
        rcases List.mem_map.mp hmem with ⟨m, hm, hid⟩
        exact h.disj m hm (hid ▸ holdid)
      refine ⟨?_, ?_, ?_, ?_, ?_, ?_⟩
      · simp only [List.map_cons]
        refine List.nodup_cons.mpr ⟨?_, nodup_ids_removeKey k h.recNodup⟩
        intro hmem
        rcases List.mem_map.mp hmem with ⟨m, hm, hid⟩
        have := h.recLt m (mem_removeKey.mp hm).1
        simp only [mkNode] at hid
        omega
      · intro n hn
        rcases List.mem_cons.mp hn with hn | hn
        · simp [hn, mkNode]
        · exact Nat.lt_succ_of_lt (h.recLt n (mem_removeKey.mp hn).1)
      · intro n hn
        rcases List.mem_append.mp hn with hn | hn
        · exact Nat.lt_succ_of_lt (h.logLt n hn)
        · simp only [List.mem_singleton] at hn
          exact hn ▸ Nat.lt_succ_of_lt holdlt
      · simp only [List.map_append, List.map_singleton]
        rw [List.nodup_append]
        exact ⟨h.logNodup, List.nodup_singleton _,
          fun i hi => by
            simp only [List.mem_singleton]
            intro he
            exact holdnotlog (he ▸ hi)⟩
      · intro n hn
        simp only [List.map_cons, List.mem_cons]
        rcases List.mem_append.mp hn with hn | hn
        · have hd := h.disj n hn
          have hlt := h.logLt n hn
          rintro (he | he)
          · simp only [mkNode] at he; omega
          · exact hd (ids_removeKey_subset k s.recency _ he)
        · simp only [List.mem_singleton] at hn
          subst hn
          rintro (he | he)
          · simp only [mkNode] at he; omega
          · exact id_not_mem_removeKey h.recNodup hold holdk he
      · intro n hn
        rcases List.mem_append.mp hn with hn | hn
        · exact h.logUnpinned n hn
        · simp only [List.mem_singleton] at hn
          exact hn ▸ hold0

theorem inv_get {s : LruState K V} {log : List (CacheNode K V)}
    (h : Inv s log) (k : K) : Inv (lruGet k s).2 log := by
  rcases hl : lookupKey k s.recency with _ | n
  · simpa only [lruGet, hl] using h
  · rcases lookupKey_eq_some hl with ⟨hn, hnk⟩
    simp only [lruGet, hl]
    have hid : ({ n with pin_count := n.pin_count + 1 } : CacheNode K V).id = n.id := rfl
    refine ⟨?_, ?_, ?_, h.logNodup, ?_, h.logUnpinned⟩
    · simp only [List.map_cons, hid]
      refine List.nodup_cons.mpr ⟨?_, nodup_ids_removeKey k h.recNodup⟩
      exact id_not_mem_removeKey h.recNodup hn hnk
    · intro m hm
      rcases List.mem_cons.mp hm with hm | hm
      · rw [hm]
        exact h.recLt n hn
      · exact h.recLt m (mem_removeKey.mp hm).1
    · exact h.logLt
    · intro m hm
      have hd := h.disj m hm
      simp only [List.map_cons, hid, List.mem_cons]
      rintro (he | he)
      · exact hd (he ▸ List.mem_map_of_mem _ hn)
      · exact hd (ids_removeKey_subset k s.recency _ he)

theorem inv_release {s : LruState K V} {log : List (CacheNode K V)}
    (h : Inv s log) (k : K) : Inv (lruRelease k s) log := by
  refine ⟨?_, ?_, h.logLt, h.logNodup, ?_, h.logUnpinned⟩
  · simpa only [lruRelease, decPin_map_id] using h.recNodup
  · intro n hn
    rcases mem_decPin_id hn with ⟨m, hm, he⟩
    have := h.recLt m hm
    simp only [lruRelease]
    omega
  · intro n hn
    simpa only [lruRelease, decPin_map_id] using h.disj n hn

theorem inv_erase {s : LruState K V} {log : List (CacheNode K V)}
    (h : Inv s log) (k : K) :
    Inv (lruErase k s).1 (log ++ (lruErase k s).2) := by
  rcases hl : lookupKey k s.recency with _ | n
  · simpa only [lruErase, hl, List.append_nil] using h
  · rcases lookupKey_eq_some hl with ⟨hn, hnk⟩
    by_cases hp : 0 < n.pin_count
    · simpa only [lruErase, hl, if_pos hp, List.append_nil] using h
    · simp only [lruErase, hl, if_neg hp]
      have hn0 : n.pin_count = 0 := Nat.eq_zero_of_not_pos hp
      have hnid : n.id ∈ s.recency.map CacheNode.id := List.mem_map_of_mem _ hn
      have hnnotlog : n.id ∉ log.map CacheNode.id := by
        intro hmem
        rcases List.mem_map.mp hmem with ⟨m, hm, hid⟩
        exact h.disj m hm (hid ▸ hnid)
      refine ⟨nodup_ids_removeKey k h.recNodup, ?_, ?_, ?_, ?_, ?_⟩
      · intro m hm
        exact h.recLt m (mem_removeKey.mp hm).1
      · intro m hm
        rcases List.mem_append.mp hm with hm | hm
        · exact h.logLt m hm
        · simp only [List.mem_singleton] at hm
          exact hm ▸ h.recLt n hn
      · simp only [List.map_append, List.map_singleton]
        rw [List.nodup_append]
        exact ⟨h.logNodup, List.nodup_singleton _,
          fun i hi => by
            simp only [List.mem_singleton]
            intro he
            exact hnnotlog (he ▸ hi)⟩
      · intro m hm
        rcases List.mem_append.mp hm with hm | hm
        · intro he
          exact h.disj m hm (ids_removeKey_subset k s.recency _ he)
        · simp only [List.mem_singleton] at hm
          subst hm
          exact id_not_mem_removeKey h.recNodup hn hnk
      · intro m hm
        rcases List.mem_append.mp hm with hm | hm
        · exact h.logUnpinned m hm
        · simp only [List.mem_singleton] at hm
          exact hm ▸ hn0

theorem inv_prune {s : LruState K V} {log : List (CacheNode K V)}
    (h : Inv s log) (now : Nat) :
    Inv (lruPrune now s).1 (log ++ (lruPrune now s).2) := by
  simp only [lruPrune]
  have hrevnd : (s.recency.reverse.map CacheNode.id).Nodup := by
    rw [List.map_reverse, List.nodup_reverse]
    exact h.recNodup
  have hkept := sweep_kept_sublist now s.capacity s.recency.reverse s.recency.length
  have hev := sweep_ev_sublist now s.capacity s.recency.reverse s.recency.length
  refine ⟨?_, ?_, ?_, ?_, ?_, ?_⟩
  · rw [List.map_reverse, List.nodup_reverse]
    exact (hkept.map CacheNode.id).nodup hrevnd
  · intro n hn
    have : n ∈ s.recency := List.mem_reverse.mp (hkept.subset (List.mem_reverse.mp hn))
    exact h.recLt n this
  · intro n hn
    rcases List.mem_append.mp hn with hn | hn
    · exact h.logLt n hn
    · exact h.recLt n (List.mem_reverse.mp (hev.subset hn))
  · simp only [List.map_append]
    rw [List.nodup_append]
    refine ⟨h.logNodup, (hev.map CacheNode.id).nodup hrevnd, ?_⟩
    intro i hi hi2
    rcases List.mem_map.mp hi with ⟨m, hm, hmid⟩
    rcases List.mem_map.mp hi2 with ⟨e, he, heid⟩
    have : e ∈ s.recency := List.mem_reverse.mp (hev.subset he)
    exact h.disj m hm (hmid ▸ heid ▸ List.mem_map_of_mem _ this)
  · intro n hn
    rw [List.map_reverse, List.mem_reverse]
    rcases List.mem_append.mp hn with hn | hn
    · intro he
      rcases List.mem_map.mp he with ⟨m, hm, hmid⟩
      have : m ∈ s.recency := List.mem_reverse.mp (hkept.subset hm)
      exact h.disj n hn (hmid ▸ List.mem_map_of_mem _ this)
    · exact sweep_not_kept_of_evicted now s.capacity hrevnd hn
  · intro n hn
    rcases List.mem_append.mp hn with hn | hn
    · exact h.logUnpinned n hn
    · exact sweep_ev_pin now s.capacity s.recency.reverse s.recency.length n hn

theorem inv_step {s : LruState K V} {log : List (CacheNode K V)}
    (h : Inv s log) (op : Op K V) :
    Inv (stepOp s op).1 (log ++ (stepOp s op).2) := by
  cases op with
  | insert now k v ttl => exact inv_insert h now k v ttl
  | get k => simpa only [stepOp, List.append_nil] using inv_get h k
  | release k => simpa only [stepOp, List.append_nil] using inv_release h k
  | erase k => exact inv_erase h k
  | prune now => exact inv_prune h now
  | regist f =>
      simp only [stepOp, List.append_nil, lruRegistCleanHandle]
      exact ⟨h.recNodup, h.recLt, h.logLt, h.logNodup, h.disj, h.logUnpinned⟩

theorem inv_foldl (ops : List (Op K V)) :
    ∀ (s : LruState K V) (log : List (CacheNode K V)), Inv s log →
      Inv (ops.foldl (fun acc op => ((stepOp acc.1 op).1, acc.2 ++ (stepOp acc.1 op).2)) (s, log)).1
        (ops.foldl (fun acc op => ((stepOp acc.1 op).1, acc.2 ++ (stepOp acc.1 op).2)) (s, log)).2 := by
  induction ops with
  | nil => intro s log h; exact h
  | cons op rest ih =>
      intro s log h
      simpa only [List.foldl_cons] using ih _ _ (inv_step h op)

theorem inv_runOps (cap : Nat) (ops : List (Op K V)) :
    Inv (runOps cap ops).1 (runOps cap ops).2 :=
  inv_foldl ops (lruInit cap) [] (inv_init cap)

theorem insert_shards (hash : K → Nat) (now : Nat) (k : K) (v : V) (ttl : Nat)
    (c : ShardCache K V) (j : Fin kShardNum) :
    (ShardCache.Insert hash now k v ttl c).1.shards j
      = if j = shardIdx hash k
        then (lruInsert now k v ttl (c.shards (shardIdx hash k))).1
        else c.shards j := by
  simp [ShardCache.Insert, Function.update_apply]

theorem get_shards (hash : K → Nat) (k : K) (c : ShardCache K V) (j : Fin kShardNum) :
    (ShardCache.Get hash k c).2.shards j
      = if j = shardIdx hash k
        then (lruGet k (c.shards (shardIdx hash k))).2
        else c.shards j := by
  simp [ShardCache.Get, Function.update_apply]

theorem get_result (hash : K → Nat) (k : K) (c : ShardCache K V) :
    (ShardCache.Get hash k c).1 = (lruGet k (c.shards (shardIdx hash k))).1 := rfl

theorem release_shards (hash : K → Nat) (node : CacheNode K V) (c : ShardCache K V)
    (j : Fin kShardNum) :
    (ShardCache.Release hash node c).shards j
      = if j = shardIdx hash node.key
        then lruRelease node.key (c.shards (shardIdx hash node.key))
        else c.shards j := by
  simp [ShardCache.Release, Function.update_apply]

theorem erase_shards (hash : K → Nat) (k : K) (c : ShardCache K V) (j : Fin kShardNum) :
    (ShardCache.Erase hash k c).1.shards j
      = if j = shardIdx hash k
        then (lruErase k (c.shards (shardIdx hash k))).1
        else c.shards j := by
  simp [ShardCache.Erase, Function.update_apply]

theorem finRange_kShardNum :
    List.finRange kShardNum
      = [⟨0, by decide⟩, ⟨1, by decide⟩, ⟨2, by decide⟩, ⟨3, by decide⟩] := by
  decide

theorem prune_shards (now : Nat) (c : ShardCache K V) (i : Fin kShardNum) :
    (ShardCache.Prune now c).1.shards i = (lruPrune now (c.shards i)).1 := by
  rw [ShardCache.Prune, finRange_kShardNum]
  simp only [List.foldl_cons, List.foldl_nil]
  fin_cases i <;> simp [Function.update_apply, Fin.ext_iff]

theorem prune_log (now : Nat) (c : ShardCache K V) :
    (ShardCache.Prune now c).2
      = (lruPrune now (c.shards ⟨0, by decide⟩)).2
        ++ (lruPrune now (c.shards ⟨1, by decide⟩)).2
        ++ (lruPrune now (c.shards ⟨2, by decide⟩)).2
        ++ (lruPrune now (c.shards ⟨3, by decide⟩)).2 := by
  rw [ShardCache.Prune, finRange_kShardNum]
  simp [Function.update_apply, Fin.ext_iff, List.append_assoc]

theorem regist_shards (f : K → V → Unit) (c : ShardCache K V) (i : Fin kShardNum) :
    (ShardCache.RegistCleanHandle f c).shards i
      = lruRegistCleanHandle f (c.shards i) := by
  rw [ShardCache.RegistCleanHandle, finRange_kShardNum]
  simp only [List.foldl_cons, List.foldl_nil]
  fin_cases i <;> simp [Function.update_apply, Fin.ext_iff]

theorem lruGet_some_key {k : K} {s : LruState K V} {n : CacheNode K V}
    (h : (lruGet k s).1 = some n) : n.key = k := by
  rcases hl : lookupKey k s.recency with _ | m
  · simp [lruGet, hl] at h
  · simp only [lruGet, hl, Option.some.injEq] at h
    rw [← h]
    exact (lookupKey_eq_some hl).2

theorem getRelease_lookup {k : K} {s : LruState K V} {n : CacheNode K V}
    (hl : lookupKey k s.recency = some n) :
    lookupKey k (getRelease k s).recency = some n := by
  have hk := (lookupKey_eq_some hl).2
  subst hk
  simp [getRelease, lruGet, hl, lruRelease, decPin, lookupKey]

theorem pin_round_trip_aux (k : K) (reps : Nat) :
    ∀ (s : LruState K V), presentKey k s = true →
      pinOf k ((getRelease k)^[reps] s) = pinOf k s := by
  induction reps with
  | zero => intro s _; simp
  | succ m ih =>
      intro s h
      rcases Option.isSome_iff_exists.mp h with ⟨n, hl⟩
      have h2 := getRelease_lookup hl
      have hpres2 : presentKey k (getRelease k s) = true := by
        simp [presentKey, h2]
      rw [Function.iterate_succ_apply, ih _ hpres2]
      simp [pinOf, h2, hl]

theorem pinnedKey_spec {k : K} {s : LruState K V} (h : pinnedKey k s = true) :
    ∃ n, lookupKey k s.recency = some n ∧ 0 < n.pin_count := by
  rcases hl : lookupKey k s.recency with _ | n
  · simp [pinnedKey, hl] at h
  · refine ⟨n, rfl, ?_⟩
    simpa [pinnedKey, hl] using h

/-- Claim C1: the claim asserts that every indexing of `cache_impl_` — by
the constructor loop over indices `0..kShardNum-1` and by the member
operations — is within the vector's bounds.  The code default-constructs
`cache_impl_` as an empty `std::vector` and never grows it, so already the
constructor's first access, index `0`, is out of bounds: the in-bounds
property is false. -/
theorem claim1_cache_impl_access_out_of_bounds :
    ¬ ctorAccessesInBounds ∧ 0 ∈ ctorIndices ∧ ¬ (0 < cacheImplInitLength) := by
  refine ⟨?_, by decide, by decide⟩
  show ¬ ∀ i ∈ ctorIndices, i < cacheImplInitLength
  decide

/-- Claim C2: a node with positive pin count is never removed: for every
shard state and every operation (including `Prune` and `Erase`), a key
that is present and pinned before the operation is still present after it,
so the transition `present(pinned) → absent` never occurs under any
sequence of operations. -/
theorem claim2_pinned_never_removed (s : LruState K V) (op : Op K V) (k : K)
    (h : pinnedKey k s = true) : presentKey k (stepOp s op).1 = true := by
  rcases pinnedKey_spec h with ⟨n, hl, hpin⟩
  rcases lookupKey_eq_some hl with ⟨hmem, hkey⟩
  cases op with
  | insert now k2 v ttl =>
      rcases hl2 : lookupKey k2 s.recency with _ | old
      · simp only [stepOp, lruInsert, hl2]
        exact presentKey_iff.mpr ⟨n, List.mem_cons_of_mem _ hmem, hkey⟩
      · by_cases hp2 : 0 < old.pin_count
        · simp only [stepOp, lruInsert, hl2, if_pos hp2]
          exact presentKey_iff.mpr ⟨n, hmem, hkey⟩
        · simp only [stepOp, lruInsert, hl2, if_neg hp2]
          have hkk : k2 ≠ k := by
            intro he
            subst he
            rw [hl] at hl2
            injection hl2 with h3
            exact hp2 (h3 ▸ hpin)
          exact presentKey_iff.mpr ⟨n, List.mem_cons_of_mem _
            (mem_removeKey.mpr ⟨hmem, fun hc => hkk (hc ▸ hkey)⟩), hkey⟩
  | get k2 =>
      rcases hl2 : lookupKey k2 s.recency with _ | m
      · simp only [stepOp, lruGet, hl2]
        exact presentKey_iff.mpr ⟨n, hmem, hkey⟩
      · simp only [stepOp, lruGet, hl2]
        by_cases hkk : k2 = k
        · subst hkk
          rw [hl] at hl2
          injection hl2 with h3
          subst h3
          exact presentKey_iff.mpr ⟨_, List.mem_cons_self _ _, hkey⟩
        · exact presentKey_iff.mpr ⟨n, List.mem_cons_of_mem _
            (mem_removeKey.mpr ⟨hmem, fun hc => hkk (hc ▸ hkey)⟩), hkey⟩
  | release k2 =>
      simp only [stepOp, lruRelease]
      have hw : (if n.key = k2 then { n with pin_count := n.pin_count - 1 } else n)
          ∈ decPin k2 s.recency :=
        List.mem_map.mpr ⟨n, hmem, rfl⟩
      refine presentKey_iff.mpr ⟨_, hw, ?_⟩
      split <;> exact hkey
  | erase k2 =>
      rcases hl2 : lookupKey k2 s.recency with _ | m
      · simp only [stepOp, lruErase, hl2]
        exact presentKey_iff.mpr ⟨n, hmem, hkey⟩
      · by_cases hp2 : 0 < m.pin_count
        · simp only [stepOp, lruErase, hl2, if_pos hp2]
          exact presentKey_iff.mpr ⟨n, hmem, hkey⟩
        · simp only [stepOp, lruErase, hl2, if_neg hp2]
          have hkk : k2 ≠ k := by
            intro he
            subst he
            rw [hl] at hl2
            injection hl2 with h3
            exact hp2 (h3 ▸ hpin)
          exact presentKey_iff.mpr
            ⟨n, mem_removeKey.mpr ⟨hmem, fun hc => hkk (hc ▸ hkey)⟩, hkey⟩
  | prune now =>
      simp only [stepOp, lruPrune]
      have h1 : n ∈ s.recency.reverse := List.mem_reverse.mpr hmem
      have h2 := sweep_pinned_kept now s.capacity hpin s.recency.reverse
        s.recency.length h1
      exact presentKey_iff.mpr ⟨n, List.mem_reverse.mpr h2, hkey⟩
  | regist f =>
      simp only [stepOp, lruRegistCleanHandle]
      exact presentKey_iff.mpr ⟨n, hmem, hkey⟩

theorem claim2_pinned_never_removed_witness :
    pinnedKey 1 (⟨[⟨1, 10, 1, 0, 0⟩], 1, 1, none⟩ : LruState Nat Nat) = true
    ∧ presentKey 1
        (stepOp (⟨[⟨1, 10, 1, 0, 0⟩], 1, 1, none⟩ : LruState Nat Nat)
          (Op.erase 1)).1 = true :=
  ⟨by decide, claim2_pinned_never_removed _ (Op.erase 1) 1 (by decide)⟩

/-- Claim C3: with no node pinned at the time of the sweep, immediately
after `Prune` every shard's entry count is at most its capacity; moreover
`Insert` and `Erase` preserve unpinnedness, so any sequence of Insert and
Erase operations from an unpinned state satisfies the hypothesis. -/
theorem claim3_prune_restores_capacity (c : ShardCache K V) (now : Nat)
    (h : ∀ i, allUnpinned (c.shards i)) :
    (∀ i, ((ShardCache.Prune now c).1.shards i).recency.length
        ≤ (c.shards i).capacity)
    ∧ (∀ (now2 : Nat) (k : K) (v : V) (ttl : Nat) (s : LruState K V),
        allUnpinned s → allUnpinned (lruInsert now2 k v ttl s).1)
    ∧ (∀ (k : K) (s : LruState K V),
        allUnpinned s → allUnpinned (lruErase k s).1) := by
  refine ⟨?_, ?_, ?_⟩
  · intro i
    rw [prune_shards]
    simp only [lruPrune, List.length_reverse]
    have hall : ∀ n ∈ (c.shards i).recency.reverse, n.pin_count = 0 := by
      intro n hn
      exact h i n (List.mem_reverse.mp hn)
    have hc := sweep_kept_length_le_cap now (c.shards i).capacity
      (c.shards i).recency.reverse hall
    rw [List.length_reverse] at hc
    exact hc
  · intro now2 k v ttl s hs
    rcases hl : lookupKey k s.recency with _ | old
    · simp only [lruInsert, hl, allUnpinned]
      intro n hn
      rcases List.mem_cons.mp hn with hn | hn
      · simp [hn, mkNode]
      · exact hs n hn
    · by_cases hp : 0 < old.pin_count
      · simp only [lruInsert, hl, if_pos hp]
        exact hs
      · simp only [lruInsert, hl, if_neg hp, allUnpinned]
        intro n hn
        rcases List.mem_cons.mp hn with hn | hn
        · simp [hn, mkNode]
        · exact hs n (mem_removeKey.mp hn).1
  · intro k s hs
    rcases hl : lookupKey k s.recency with _ | m
    · simp only [lruErase, hl]
      exact hs
    · by_cases hp : 0 < m.pin_count
      · simp only [lruErase, hl, if_pos hp]
        exact hs
      · simp only [lruErase, hl, if_neg hp, allUnpinned]
        intro n hn
        exact hs n (mem_removeKey.mp hn).1

theorem claim3_prune_restores_capacity_witness :
    (∀ i, allUnpinned
      ((⟨fun _ => ⟨[⟨1, 1, 0, 0, 0⟩, ⟨2, 2, 0, 0, 1⟩, ⟨3, 3, 0, 0, 2⟩], 2, 3, none⟩⟩ :
          ShardCache Nat Nat).shards i))
    ∧ (∀ i, ((ShardCache.Prune 0
        (⟨fun _ => ⟨[⟨1, 1, 0, 0, 0⟩, ⟨2, 2, 0, 0, 1⟩, ⟨3, 3, 0, 0, 2⟩], 2, 3, none⟩⟩ :
          ShardCache Nat Nat)).1.shards i).recency.length
        ≤ ((⟨fun _ => ⟨[⟨1, 1, 0, 0, 0⟩, ⟨2, 2, 0, 0, 1⟩, ⟨3, 3, 0, 0, 2⟩], 2, 3, none⟩⟩ :
          ShardCache Nat Nat).shards i).capacity) :=
  ⟨by decide, (claim3_prune_restores_capacity _ 0 (by decide)).1⟩

/-- Claim C4: over any operation sequence on a shard, the cleanup log
fires at most once per insertion identity, only for unpinned nodes, and a
cleaned-up node is no longer in the cache — together with the fact that
the model logs a cleanup exactly at each removal (eviction by `Prune`,
`Erase`, or replacement by `Insert` of the same key), the handler runs
exactly once per node lifetime and never while pinned. -/
theorem claim4_cleanup_exactly_once (cap : Nat) (ops : List (Op K V)) :
    ((runOps cap ops).2.map CacheNode.id).Nodup
    ∧ (∀ n ∈ (runOps cap ops).2, n.pin_count = 0)
    ∧ (∀ n ∈ (runOps cap ops).2,
        n.id ∉ (runOps cap ops).1.recency.map CacheNode.id) :=
  ⟨(inv_runOps cap ops).logNodup, (inv_runOps cap ops).logUnpinned,
    (inv_runOps cap ops).disj⟩

/-- Claim C5: routing is deterministic: `Insert(k,.)`, `Get(k)` and
`Erase(k)` all delegate to the shard at index `hash(k) % kShardNum`, the
shard count is the fixed constant 4, and the selector is a pure function
of the key, so repeated calls with the same key always reach the same
shard. -/
theorem claim5_routing_deterministic (hash : K → Nat) (k : K) (now : Nat)
    (v : V) (ttl : Nat) (c : ShardCache K V) :
    kShardNum = 4
    ∧ (shardIdx hash k).val = hash k % kShardNum
    ∧ (∀ j, (ShardCache.Insert hash now k v ttl c).1.shards j
        = if j = shardIdx hash k
          then (lruInsert now k v ttl (c.shards (shardIdx hash k))).1
          else c.shards j)
    ∧ (ShardCache.Get hash k c).1 = (lruGet k (c.shards (shardIdx hash k))).1
    ∧ (∀ j, (ShardCache.Get hash k c).2.shards j
        = if j = shardIdx hash k
          then (lruGet k (c.shards (shardIdx hash k))).2
          else c.shards j)
    ∧ (∀ j, (ShardCache.Erase hash k c).1.shards j
        = if j = shardIdx hash k
          then (lruErase k (c.shards (shardIdx hash k))).1
          else c.shards j) :=
  ⟨rfl, rfl, insert_shards hash now k v ttl c, rfl,
    get_shards hash k c, erase_shards hash k c⟩

/-- Claim C6: `Prune` prunes every one of the `kShardNum` shards, its
cleanup log concatenating the per-shard logs in index order `0..3`;
`RegistCleanHandle` installs the handler on every shard; and the
single-key operations `Insert`, `Get`, `Release`, `Erase` leave every
shard other than the selected one unchanged. -/
theorem claim6_fanout (now : Nat) (f : K → V → Unit) (hash : K → Nat)
    (k : K) (v : V) (ttl : Nat) (node : CacheNode K V) (c : ShardCache K V) :
    (∀ i, (ShardCache.Prune now c).1.shards i = (lruPrune now (c.shards i)).1)
    ∧ (ShardCache.Prune now c).2
        = (lruPrune now (c.shards ⟨0, by decide⟩)).2
          ++ (lruPrune now (c.shards ⟨1, by decide⟩)).2
          ++ (lruPrune now (c.shards ⟨2, by decide⟩)).2
          ++ (lruPrune now (c.shards ⟨3, by decide⟩)).2
    ∧ (∀ i, (ShardCache.RegistCleanHandle f c).shards i
        = lruRegistCleanHandle f (c.shards i))
    ∧ (∀ j, j ≠ shardIdx hash k →
        (ShardCache.Insert hash now k v ttl c).1.shards j = c.shards j)
    ∧ (∀ j, j ≠ shardIdx hash k →
        (ShardCache.Get hash k c).2.shards j = c.shards j)
    ∧ (∀ j, j ≠ shardIdx hash node.key →
        (ShardCache.Release hash node c).shards j = c.shards j)
    ∧ (∀ j, j ≠ shardIdx hash k →
        (ShardCache.Erase hash k c).1.shards j = c.shards j) := by
  refine ⟨prune_shards now c, prune_log now c, regist_shards f c, ?_, ?_, ?_, ?_⟩
  · intro j hj
    rw [insert_shards, if_neg hj]
  · intro j hj
    rw [get_shards, if_neg hj]
  · intro j hj
    rw [release_shards, if_neg hj]
  · intro j hj
    rw [erase_shards, if_neg hj]

theorem claim6_fanout_witness :
    ((⟨1, by decide⟩ : Fin kShardNum) ≠ shardIdx (fun n => n) (0 : Nat))
    ∧ (ShardCache.Insert (fun n => n) 0 (0 : Nat) (0 : Nat) 0
        (⟨fun _ => lruInit 0⟩ : ShardCache Nat Nat)).1.shards ⟨1, by decide⟩
        = (⟨fun _ => lruInit 0⟩ : ShardCache Nat Nat).shards ⟨1, by decide⟩ :=
  ⟨by decide,
    (claim6_fanout 0 (fun _ _ => ()) (fun n => n) 0 0 0 ⟨0, 0, 0, 0, 0⟩
      (⟨fun _ => lruInit 0⟩ : ShardCache Nat Nat)).2.2.2.1
      ⟨1, by decide⟩ (by decide)⟩

/-- Claim C7: `Release` computes its shard index solely from the key
stored in the node handle, so a node returned by `Get(k)` is released on
the very shard that `Get(k)` used. -/
theorem claim7_release_same_shard (hash : K → Nat) (c : ShardCache K V) (k : K)
    (n : CacheNode K V) (h : (ShardCache.Get hash k c).1 = some n) :
    shardIdx hash n.key = shardIdx hash k
    ∧ (∀ j, (ShardCache.Release hash n c).shards j
        = if j = shardIdx hash k
          then lruRelease n.key (c.shards (shardIdx hash k))
          else c.shards j) := by
  have hk : n.key = k := lruGet_some_key ((get_result hash k c) ▸ h)
  constructor
  · rw [hk]
  · intro j
    rw [release_shards, hk]

theorem claim7_release_same_shard_witness :
    ((ShardCache.Get (fun n => n) 1
        (⟨fun _ => ⟨[⟨1, 10, 0, 0, 0⟩], 2, 1, none⟩⟩ : ShardCache Nat Nat)).1
      = some (⟨1, 10, 1, 0, 0⟩ : CacheNode Nat Nat))
    ∧ shardIdx (fun n => n) (⟨1, 10, 1, 0, 0⟩ : CacheNode Nat Nat).key
        = shardIdx (fun n => n) 1 :=
  ⟨by decide,
    (claim7_release_same_shard (fun n => n)
      (⟨fun _ => ⟨[⟨1, 10, 0, 0, 0⟩], 2, 1, none⟩⟩ : ShardCache Nat Nat) 1 _
      (by decide)).1⟩

/-- Claim C8: LRU eviction order at capacity 2: after inserting `a`, `b`,
`c` and touching `a` with `Get`, `Prune` evicts exactly `b` while `a` and
`c` survive; and with no intervening `Get`, after inserting `x`, `y`, `z`
the size stays 3 until `Prune`, after which the size is 2, `x` is evicted
and `y`, `z` remain. -/
theorem claim8_lru_eviction_order :
    ((lruPrune 0 (lruGet "a" ((lruInsert 0 "c" 3 0
        ((lruInsert 0 "b" 2 0 ((lruInsert 0 "a" 1 0
          (lruInit 2 : LruState String Nat)).1)).1)).1)).2).1.recency.map
            CacheNode.key = ["a", "c"])
    ∧ ((lruPrune 0 (lruGet "a" ((lruInsert 0 "c" 3 0
        ((lruInsert 0 "b" 2 0 ((lruInsert 0 "a" 1 0
          (lruInit 2 : LruState String Nat)).1)).1)).1)).2).2.map
            CacheNode.key = ["b"])
    ∧ (((lruInsert 0 "z" 3 0 ((lruInsert 0 "y" 2 0 ((lruInsert 0 "x" 1 0
        (lruInit 2 : LruState String Nat)).1)).1)).1).recency.length = 3)
    ∧ ((lruPrune 0 ((lruInsert 0 "z" 3 0 ((lruInsert 0 "y" 2 0
        ((lruInsert 0 "x" 1 0
          (lruInit 2 : LruState String Nat)).1)).1)).1)).1.recency.length = 2)
    ∧ ((lruPrune 0 ((lruInsert 0 "z" 3 0 ((lruInsert 0 "y" 2 0
        ((lruInsert 0 "x" 1 0
          (lruInit 2 : LruState String Nat)).1)).1)).1)).1.recency.map
            CacheNode.key = ["z", "y"])
    ∧ ((lruPrune 0 ((lruInsert 0 "z" 3 0 ((lruInsert 0 "y" 2 0
        ((lruInsert 0 "x" 1 0
          (lruInit 2 : LruState String Nat)).1)).1)).1)).2.map
            CacheNode.key = ["x"]) :=
  ⟨by decide, by decide, by decide, by decide, by decide, by decide⟩

/-- Claim C9: TTL semantics: a node with no deadline (`ttl = 0` gives
`expire_at = 0`) is kept by `Prune` whenever the shard is within capacity
— it is never evicted on time grounds — while an unpinned node whose
deadline is set and past is evicted by the first `Prune` that runs after
it, even when the shard is not over capacity; `Insert` with `ttl = 0`
sets no deadline, and `Insert` with `ttl = T ≠ 0` sets deadline
`now + T`. -/
theorem claim9_ttl_semantics (s : LruState K V) (now : Nat) (n : CacheNode K V)
    (hmem : n ∈ s.recency) :
    (n.expire_at = 0 → s.recency.length ≤ s.capacity →
      n ∈ (lruPrune now s).1.recency)
    ∧ (n.pin_count = 0 → n.expire_at ≠ 0 → n.expire_at < now →
        n ∈ (lruPrune now s).2
        ∧ ((s.recency.map CacheNode.id).Nodup →
            n.id ∉ (lruPrune now s).1.recency.map CacheNode.id))
    ∧ (∀ (k : K) (v : V) (idn : Nat), (mkNode now k v 0 idn).expire_at = 0)
    ∧ (∀ (k : K) (v : V) (idn T : Nat), T ≠ 0 →
        (mkNode now k v T idn).expire_at = now + T) := by
  refine ⟨?_, ?_, ?_, ?_⟩
  · intro hexp hlen
    simp only [lruPrune]
    rw [List.mem_reverse]
    exact sweep_keeps_unexpired now s.capacity hexp s.recency.reverse
      s.recency.length hlen (List.mem_reverse.mpr hmem)
  · intro hpin hexp hlt
    constructor
    · simp only [lruPrune]
      exact sweep_expired_evicted now s.capacity hpin hexp hlt
        s.recency.reverse s.recency.length (List.mem_reverse.mpr hmem)
    · intro hnd
      simp only [lruPrune]
      rw [List.map_reverse, List.mem_reverse]
      refine sweep_not_kept_of_evicted now s.capacity ?_ ?_
      · rw [List.map_reverse, List.nodup_reverse]
        exact hnd
      · exact sweep_expired_evicted now s.capacity hpin hexp hlt
          s.recency.reverse s.recency.length (List.mem_reverse.mpr hmem)
  · intro k v idn
    simp [mkNode]
  · intro k v idn T hT
    simp [mkNode, hT]

theorem claim9_ttl_semantics_witness :
    ((⟨2, 20, 0, 5, 1⟩ : CacheNode Nat Nat)
        ∈ (lruPrune 10 (⟨[⟨1, 10, 0, 0, 0⟩, ⟨2, 20, 0, 5, 1⟩], 2, 2, none⟩ :
            LruState Nat Nat)).2)
    ∧ ((⟨1, 10, 0, 0, 0⟩ : CacheNode Nat Nat)
        ∈ (lruPrune 10 (⟨[⟨1, 10, 0, 0, 0⟩, ⟨2, 20, 0, 5, 1⟩], 2, 2, none⟩ :
            LruState Nat Nat)).1.recency) :=
  ⟨((claim9_ttl_semantics _ 10 _ (by decide)).2.1 (by decide) (by decide)
      (by decide)).1,
    (claim9_ttl_semantics _ 10 _ (by decide)).1 (by decide) (by decide)⟩

/-- Claim C10: pin round-trip: for a present key, any number of matched
`Get`/`Release` pairs restores the node's pin count to its value before
the first `Get`. -/
theorem claim10_pin_round_trip (k : K) (s : LruState K V) (reps : Nat)
    (h : presentKey k s = true) :
    pinOf k ((getRelease k)^[reps] s) = pinOf k s :=
  pin_round_trip_aux k reps s h

theorem claim10_pin_round_trip_witness :
    presentKey 1 (⟨[⟨1, 7, 5, 0, 0⟩], 1, 1, none⟩ : LruState Nat Nat) = true
    ∧ pinOf 1 ((getRelease 1)^[3]
        (⟨[⟨1, 7, 5, 0, 0⟩], 1, 1, none⟩ : LruState Nat Nat))
      = pinOf 1 (⟨[⟨1, 7, 5, 0, 0⟩], 1, 1, none⟩ : LruState Nat Nat) :=
  ⟨by decide, claim10_pin_round_trip 1 _ 3 (by decide)⟩

end CoreKV
